import Mathlib

/-!
Verification of the RAG document pipeline implemented in `src/index.js`.

Strings are modelled as `List Char`.  Each definition below is a shallow
embedding of the correspondingly named JavaScript function (the doc
comment of every definition names its source).  The effectful parts
(OpenAI embedding calls, Supabase inserts, the `match_documents` SQL
function from `src/README.md`) are modelled with explicit state passing
and boolean success oracles.
-/

/-- The JavaScript whitespace class: the characters matched by the regex
class `\s` (used in `text.replace(/\s+/g, ' ')`) and removed by
`String.prototype.trim`, per ECMA-262. -/
def isJsWs (c : Char) : Bool :=
  c.toNat == 0x9 || c.toNat == 0xA || c.toNat == 0xB || c.toNat == 0xC ||
  c.toNat == 0xD || c.toNat == 0x20 || c.toNat == 0xA0 || c.toNat == 0x1680 ||
  (decide (0x2000 ≤ c.toNat) && decide (c.toNat ≤ 0x200A)) ||
  c.toNat == 0x2028 || c.toNat == 0x2029 || c.toNat == 0x202F ||
  c.toNat == 0x205F || c.toNat == 0x3000 || c.toNat == 0xFEFF

/-- Scanner for `text.replace(/\s+/g, ' ')`: `prevWs` records whether the
previous character belonged to a whitespace run, so that each maximal run
of whitespace characters emits exactly one space. -/
def collapseGo (prevWs : Bool) : List Char → List Char
  | [] => []
  | c :: cs =>
    if isJsWs c then
      if prevWs then collapseGo true cs
      else ' ' :: collapseGo true cs
    else c :: collapseGo false cs

/-- `text.replace(/\s+/g, ' ')` from `chunkText` (src/index.js line 39):
every maximal run of whitespace characters is replaced by a single
space. -/
def collapseWs (l : List Char) : List Char := collapseGo false l

/-- `String.prototype.trim()`: remove leading and trailing JavaScript
whitespace.  Used both on the cleaned text inside `chunkText` and on each
candidate chunk (`chunk.trim()`). -/
def trimWs (l : List Char) : List Char :=
  (l.dropWhile isJsWs).rdropWhile isJsWs

/-- The `cleanText` local of `chunkText` (src/index.js line 39):
`text.replace(/\s+/g, ' ').trim()`. -/
def cleanText (text : List Char) : List Char := trimWs (collapseWs text)

/-- ECMA-262 `String.prototype.substring(a, b)`: both indices are clamped
to `[0, length]` and swapped when out of order. -/
def jsSubstring (s : List Char) (a b : ℤ) : List Char :=
  let len : ℤ := s.length
  let a' := max 0 (min a len)
  let b' := max 0 (min b len)
  let lo := min a' b'
  let hi := max a' b'
  (s.drop lo.toNat).take (hi - lo).toNat

/-- The loop of `chunkText` (src/index.js lines 41-46), exactly as
written:

    for (let i = 0; i < cleanText.length; i += chunkSize - chunkOverlap) {
        const chunk = cleanText.substring(i, i + chunkSize);
        if (chunk.trim().length > 0) { textChunks.push(chunk); }
    }

The source performs no parameter validation, so the stride
`chunkSize - chunkOverlap` may be zero or negative, in which case the
loop never reaches `cleanText.length`.  The model therefore carries a
fuel bound: `none` means the loop has not terminated within `fuel`
iterations. -/
def chunkLoopFuel (clean : List Char) (S O : ℤ) : ℕ → ℤ → Option (List (List Char))
  | 0, _ => none
  | fuel + 1, i =>
    if i < (clean.length : ℤ) then
      match chunkLoopFuel clean S O fuel (i + (S - O)) with
      | none => none
      | some rest =>
          some (if 0 < (trimWs (jsSubstring clean i (i + S))).length then
                  jsSubstring clean i (i + S) :: rest
                else rest)
    else some []

/-- `chunkText(text, chunkSize, chunkOverlap)` (src/index.js lines 37-49)
as the exact fuelled loop over the cleaned text. -/
def chunkTextJs (text : List Char) (S O : ℤ) (fuel : ℕ) : Option (List (List Char)) :=
  chunkLoopFuel (cleanText text) S O fuel 0

/-- The body of the `chunkText` loop for natural-number parameters and a
structural fuel.  For `O < S` the stride `S - O` is positive and the loop
performs at most `clean.length` iterations, so with fuel
`clean.length + 1` this computes the exact result of the JavaScript
loop (theorem `chunkTextJs_eq_chunkText` below). -/
def chunkAux (clean : List Char) (S O : ℕ) : ℕ → ℕ → List (List Char)
  | 0, _ => []
  | fuel + 1, i =>
    if i < clean.length then
      let chunk := (clean.drop i).take S
      let rest := chunkAux clean S O fuel (i + (S - O))
      if 0 < (trimWs chunk).length then chunk :: rest else rest
    else []

/-- `chunkText` (src/index.js lines 37-49) for natural-number parameters:
clean the text (collapse whitespace runs, trim), then collect the
substrings `cleanText.substring(i, i + S)` for `i = 0, d, 2d, ...` with
stride `d = S - O`, keeping those that are non-empty after trimming.
Faithful to the source whenever `O < S`; the unvalidated case `O ≥ S`
(where the source loop never terminates) is covered by `chunkTextJs`. -/
def chunkText (text : List Char) (S O : ℕ) : List (List Char) :=
  chunkAux (cleanText text) S O ((cleanText text).length + 1) 0

/-- The last `n` characters of a string (all of it when it is shorter). -/
def lastN (n : ℕ) (l : List Char) : List Char := l.drop (l.length - n)

/-- The first `n` characters of a string (all of it when it is shorter). -/
def firstN (n : ℕ) (l : List Char) : List Char := l.take n

/-- Two whitespace characters are never adjacent after
`replace(/\s+/g, ' ')`. -/
def noWsPair (a b : Char) : Prop := ¬(isJsWs a = true ∧ isJsWs b = true)

/-- Insertion step of sorting by descending similarity. -/
def insertDesc {α : Type} (sim : α → ℚ) (a : α) : List α → List α
  | [] => [a]
  | b :: l => if sim b < sim a then a :: b :: l else b :: insertDesc sim a l

/-- `order by similarity desc` of `match_documents`: sort the rows by
descending similarity (ties in an unspecified order, as in SQL). -/
def sortDesc {α : Type} (sim : α → ℚ) : List α → List α
  | [] => []
  | a :: l => insertDesc sim a (sortDesc sim l)

/-- The `match_documents` SQL function (src/README.md lines 149-173):
keep the rows whose similarity is strictly greater than
`match_threshold`, order them by descending similarity, and return at
most `match_count` of them.  The per-row similarity
`1 - (embedding <=> query_embedding)` is computed by the external
pgvector operator, so it is abstracted as the function `sim`. -/
def matchDocuments {α : Type} (sim : α → ℚ) (rows : List α) (thr : ℚ) (cnt : ℕ) :
    List α :=
  (sortDesc sim (rows.filter (fun r => decide (thr < sim r)))).take cnt

/-- The vector-search step of `processQuery` (src/index.js lines
147-151): `match_documents` invoked with `match_threshold: 0.5` and
`match_count: 10`. -/
def retrieve {α : Type} (sim : α → ℚ) (rows : List α) : List α :=
  matchDocuments sim rows (mkRat 1 2) 10

/-- Descending-similarity ordering between two rows. -/
def descOn {α : Type} (sim : α → ℚ) (a b : α) : Prop := sim b ≤ sim a

/-- JavaScript `String.prototype.trim` on Lean strings. -/
def jsTrimS (s : String) : String := String.mk (trimWs s.data)

/-- One labelled section of the context,
`Chunk ${idx + 1}:\n${row.content.trim()}\n\n` (src/index.js line 165),
where `idx` is the 0-based rank of the match. -/
def chunkLabel (idx : ℕ) (content : String) : String :=
  "Chunk " ++ toString (idx + 1) ++ ":\n" ++ jsTrimS content ++ "\n\n"

/-- Context assembly of `processQuery` (src/index.js lines 163-170):
start from the empty string, append one labelled section per match in
rank order, and fall back to the sentinel when the result is empty
(`if (!context) context = 'No relevant context found.';`). -/
def buildContext (rows : List String) : String :=
  let context := rows.enum.foldl (fun acc p => acc ++ chunkLabel p.1 p.2) ""
  if context = "" then "No relevant context found." else context

/-- The user message of the generation prompt (src/index.js lines
180-183):
`Context:\n${context}\n\nQuestion: ${query}\n\nAnswer clearly and concisely.` -/
def userMessage (query : String) (rows : List String) : String :=
  "Context:\n" ++ buildContext rows ++ "\n\nQuestion: " ++ query ++
    "\n\nAnswer clearly and concisely."

/-- The `POST /query` handler guard (src/index.js lines 200-208):

    const { query } = req.body;
    if (!query || !query.trim()) {
        return res.status(400).json({ error: 'Query is required' });
    }
    const answer = await processQuery(query);
    res.status(200).json({ answer });

The body's `query` field is a possibly-missing string; `!query` is true
for a missing or empty string, `!query.trim()` for a whitespace-only
one.  `process` abstracts the whole downstream pipeline (embedding,
search, generation); a rejected request returns status 400 without
invoking it. -/
def postQuery {α : Type} (process : String → α) (body : Option String) : Except ℕ α :=
  match body with
  | none => Except.error 400
  | some q =>
    if q = "" ∨ jsTrimS q = "" then Except.error 400
    else Except.ok (process q)

/-- A file in the `MyDocs` folder: its name and the text extracted by
the pdf-parse collaborator (`pdfData.text`, possibly absent — the source
reads `pdfData.text || ''`). -/
structure PDoc where
  name : String
  text : Option String
deriving DecidableEq

/-- The observable effects of folder indexing: the rows inserted into
the Supabase `MyPDFDocuments` table, as `(title, content)` pairs, and
the file names that produced the `No text extracted from ..., skipping.`
warning. -/
structure IndexState where
  persisted : List (String × String)
  warnings : List String
deriving DecidableEq

/-- `file.toLowerCase().endsWith('.pdf')` (src/index.js line 89). -/
def isPdfName (name : String) : Bool :=
  ['.', 'p', 'd', 'f'].isSuffixOf (name.data.map Char.toLower)

/-- `path.parse(file).name` for a file whose name ends in `.pdf`: the
name with the four-character extension removed (src/index.js line 111). -/
def docTitle (name : String) : String :=
  String.mk (name.data.take (name.data.length - 4))

/-- `saveChunksAsEmbeddings` (src/index.js lines 52-78): each chunk is
embedded and inserted concurrently and the results are joined with
`Promise.all`.  `ok c` says whether embedding and inserting chunk `c`
succeeds.  `Promise.all` rejects when any insert fails, but the inserts
that succeed are persisted regardless (a rejected `Promise.all` does not
undo the settled promises).  Returns the persisted `(title, content)`
rows and the overall success flag. -/
def saveChunksAsEmbeddings (ok : String → Bool) (title : String)
    (chunks : List String) : List (String × String) × Bool :=
  ((chunks.filter ok).map (fun c => (title, c)), chunks.all ok)

/-- The `for (const file of files)` loop of `indexLocalDocs`
(src/index.js lines 81-116): non-PDF files are skipped; a document whose
extracted text trims to empty is skipped with a warning
(`console.warn`, `continue`); otherwise the text is chunked with the
default parameters and saved.  A failed save throws out of the awaited
call, so the loop stops and the whole request fails (`Bool` result
`false`). -/
def indexGo (ok : String → Bool) : List PDoc → IndexState → IndexState × Bool
  | [], st => (st, true)
  | d :: rest, st =>
    if isPdfName d.name then
      let text := jsTrimS (d.text.getD "")
      if text = "" then
        indexGo ok rest { st with warnings := st.warnings ++ [d.name] }
      else
        let chunks := (chunkText text.data 1000 200).map String.mk
        let saved := saveChunksAsEmbeddings ok (docTitle d.name) chunks
        if saved.2 then
          indexGo ok rest { st with persisted := st.persisted ++ saved.1 }
        else
          ({ st with persisted := st.persisted ++ saved.1 }, false)
    else indexGo ok rest st

/-- `indexLocalDocs` (src/index.js lines 81-116), started on an empty
table and an empty console. -/
def indexLocalDocs (ok : String → Bool) (files : List PDoc) : IndexState × Bool :=
  indexGo ok files ⟨[], []⟩

theorem isJsWs_space : isJsWs ' ' = true := by decide

theorem eq_space_of_isJsWs_of_mem_collapseGo {c : Char} :
    ∀ (l : List Char) (b : Bool), c ∈ collapseGo b l → isJsWs c = true → c = ' ' := by
  intro l
  induction l with
  | nil => intro b h; simp [collapseGo] at h
  | cons a as ih =>
    intro b hc hws
    rw [collapseGo] at hc
    cases ha : isJsWs a with
    | true =>
      simp only [ha, if_true] at hc
      cases b with
      | true => exact ih true hc hws
      | false =>
        rcases List.mem_cons.mp hc with rfl | hc'
        · rfl
        · exact ih true hc' hws
    | false =>
      simp only [ha, Bool.false_eq_true, if_false] at hc
      rcases List.mem_cons.mp hc with rfl | hc'
      · rw [hws] at ha
        exact absurd ha (by simp)
      · exact ih false hc' hws

theorem eq_space_of_isJsWs_of_mem_collapseWs {c : Char} (l : List Char)
    (hc : c ∈ collapseWs l) (hws : isJsWs c = true) : c = ' ' :=
  eq_space_of_isJsWs_of_mem_collapseGo l false hc hws

theorem head_collapseGo_true_not_ws :
    ∀ (l : List Char) (y : Char), (collapseGo true l).head? = some y →
      isJsWs y = false := by
  intro l
  induction l with
  | nil => intro y hy; simp [collapseGo] at hy
  | cons a as ih =>
    intro y hy
    rw [collapseGo] at hy
    cases ha : isJsWs a with
    | true =>
      simp only [ha, if_true] at hy
      exact ih y hy
    | false =>
      simp only [ha, Bool.false_eq_true, if_false, List.head?_cons, Option.some_inj] at hy
      rw [← hy]
      exact ha

theorem chain'_collapseGo : ∀ (l : List Char) (b : Bool), (collapseGo b l).Chain' noWsPair := by
  intro l
  induction l with
  | nil => intro b; simp [collapseGo]
  | cons a as ih =>
    intro b
    rw [collapseGo]
    cases ha : isJsWs a with
    | true =>
      simp only [ha, if_true]
      cases b with
      | true => exact ih true
      | false =>
        simp only [Bool.false_eq_true, if_false]
        rw [List.chain'_cons']
        refine ⟨?_, ih true⟩
        intro y hy hpair
        have := head_collapseGo_true_not_ws as y hy
        rw [this] at hpair
        exact Bool.false_ne_true hpair.2
    | false =>
      simp only [ha, Bool.false_eq_true, if_false]
      rw [List.chain'_cons']
      refine ⟨?_, ih false⟩
      intro y _ hpair
      rw [ha] at hpair
      exact Bool.false_ne_true hpair.1

theorem chain'_collapseWs (l : List Char) : (collapseWs l).Chain' noWsPair :=
  chain'_collapseGo l false

theorem trimWs_isInfix (l : List Char) : trimWs l <:+: l := by
  unfold trimWs
  exact ( List.rdropWhile_prefix isJsWs _).isInfix.trans ( List.dropWhile_suffix isJsWs).isInfix

theorem trimWs_idem (l : List Char) : trimWs (trimWs l) = trimWs l := by
  unfold trimWs
  have h1 : (((l.dropWhile isJsWs).rdropWhile isJsWs).dropWhile isJsWs)
      = (l.dropWhile isJsWs).rdropWhile isJsWs := by
    rw [List.dropWhile_eq_self_iff]
    intro hl
    have hpre := List.rdropWhile_prefix isJsWs (l.dropWhile isJsWs)
    have hlen : 0 < (l.dropWhile isJsWs).length :=
      Nat.lt_of_lt_of_le hl hpre.length_le
    have hget := hpre.getElem hl
    rw [List.get_eq_getElem, hget]
    have hself : (l.dropWhile isJsWs).dropWhile isJsWs = l.dropWhile isJsWs :=
      List.dropWhile_idempotent _ _
    have := List.dropWhile_eq_self_iff.mp hself hlen
    rw [List.get_eq_getElem] at this
    exact this
  rw [h1, List.rdropWhile_idempotent]

theorem trimWs_eq_nil_iff {l : List Char} : trimWs l = [] ↔ ∀ c ∈ l, isJsWs c = true := by
  unfold trimWs
  rw [List.rdropWhile_eq_nil_iff]
  constructor
  · intro h c hc
    by_cases hws : isJsWs c = true
    · exact hws
    · exfalso
      have hcmem : c ∈ l.dropWhile isJsWs := by
        have hsplit := @List.takeWhile_append_dropWhile _ isJsWs l
        rw [← hsplit] at hc
        rcases List.mem_append.mp hc with htk | hdr
        · exact absurd (List.mem_takeWhile_imp htk) hws
        · exact hdr
      have := h c hcmem
      exact hws this
  · intro h c hc
    exact h c (( List.dropWhile_suffix isJsWs).subset hc)

theorem trimWs_ne_nil_of_mem {l : List Char} {c : Char} (hc : c ∈ l)
    (hws : isJsWs c = false) : trimWs l ≠ [] := by
  intro hnil
  have := trimWs_eq_nil_iff.mp hnil c hc
  rw [hws] at this
  exact Bool.false_ne_true this

theorem getLast_trimWs_not_ws (l : List Char) (h : trimWs l ≠ []) :
    ¬isJsWs ((trimWs l).getLast h) := by
  unfold trimWs at h ⊢
  exact List.rdropWhile_last_not _ _ h

theorem chain'_cleanText (text : List Char) : (cleanText text).Chain' noWsPair :=
  List.Chain'.infix (chain'_collapseWs text) (trimWs_isInfix _)

theorem mem_cleanText_ws_eq_space {text : List Char} {c : Char}
    (hc : c ∈ cleanText text) (hws : isJsWs c = true) : c = ' ' :=
  eq_space_of_isJsWs_of_mem_collapseWs _ ((trimWs_isInfix _).subset hc) hws

theorem trimWs_cleanText (text : List Char) : trimWs (cleanText text) = cleanText text :=
  trimWs_idem _

theorem chunkAux_stop {clean : List Char} {S O : ℕ} (fuel i : ℕ)
    (h : clean.length ≤ i) : chunkAux clean S O fuel i = [] := by
  cases fuel with
  | zero => rfl
  | succ n =>
    rw [chunkAux]
    rw [if_neg (Nat.not_lt.mpr h)]

theorem chunkAux_step {clean : List Char} {S O : ℕ} (fuel i : ℕ)
    (h : i < clean.length) :
    chunkAux clean S O (fuel + 1) i =
      (if 0 < (trimWs ((clean.drop i).take S)).length then
        ((clean.drop i).take S) :: chunkAux clean S O fuel (i + (S - O))
      else chunkAux clean S O fuel (i + (S - O))) := by
  rw [chunkAux, if_pos h]

/-- Every chunk in the output passed the `chunk.trim().length > 0` filter
and is a window `cleanText.substring(j, j + S)` of the cleaned text. -/
theorem mem_chunkAux {clean : List Char} {S O : ℕ} :
    ∀ (fuel i : ℕ) (c : List Char), c ∈ chunkAux clean S O fuel i →
      0 < (trimWs c).length ∧ ∃ j, c = (clean.drop j).take S := by
  intro fuel
  induction fuel with
  | zero => intro i c hc; simp [chunkAux] at hc
  | succ n ih =>
    intro i c hc
    by_cases hi : i < clean.length
    · rw [chunkAux_step n i hi] at hc
      by_cases hf : 0 < (trimWs ((clean.drop i).take S)).length
      · rw [if_pos hf] at hc
        rcases List.mem_cons.mp hc with rfl | hc'
        · exact ⟨hf, i, rfl⟩
        · exact ih _ c hc'
      · rw [if_neg hf] at hc
        exact ih _ c hc
    · rw [chunkAux_stop (n + 1) i (Nat.not_lt.mp hi)] at hc
      simp at hc

theorem window_isInfix (l : List Char) (i S : ℕ) : (l.drop i).take S <:+: l :=
  ( List.take_prefix S (l.drop i)).isInfix.trans ( List.drop_suffix i l).isInfix

/-- When `chunkSize ≥ 2`, no window of the cleaned text is discarded by
the `chunk.trim().length > 0` filter: the cleaned text has no two
adjacent whitespace characters and ends in a non-whitespace character,
so every window contains a non-whitespace character. -/
theorem trim_window_pos {text : List Char} {S : ℕ} (hS : 2 ≤ S) :
    ∀ i, i < (cleanText text).length →
      0 < (trimWs (((cleanText text).drop i).take S)).length := by
  intro i hi
  set clean := cleanText text with hcleandef
  rw [List.length_pos]
  by_cases h2 : i + 1 < clean.length
  · -- at least two characters remain: the window starts with two
    -- adjacent characters of the cleaned text, not both whitespace
    have hlen : 2 ≤ ((clean.drop i).take S).length := by
      rw [List.length_take, List.length_drop]
      omega
    have hchain : ((clean.drop i).take S).Chain' noWsPair :=
      List.Chain'.infix (chain'_cleanText text) (window_isInfix clean i S)
    rcases hw : (clean.drop i).take S with _ | ⟨a, _ | ⟨b, t⟩⟩
    · rw [hw] at hlen; simp at hlen
    · rw [hw] at hlen; simp at hlen
    · rw [hw] at hchain
      have hpair : noWsPair a b := (List.chain'_cons.mp hchain).1
      by_cases hb : isJsWs a = true
      · have hbf : isJsWs b = false := by
          cases hbb : isJsWs b with
          | false => rfl
          | true => exact absurd ⟨hb, hbb⟩ hpair
        exact @trimWs_ne_nil_of_mem (a :: b :: t) b (by simp) hbf
      · exact @trimWs_ne_nil_of_mem (a :: b :: t) a (by simp)
          (eq_false_of_ne_true hb)
  · -- exactly one character remains: it is the last character of the
    -- cleaned text, which is not whitespace since the text is trimmed
    have hone : clean.length = i + 1 := by omega
    have hdropne : clean.drop i ≠ [] := by
      rw [← List.length_pos, List.length_drop]
      omega
    have hwindow : (clean.drop i).take S = clean.drop i := by
      apply List.take_of_length_le
      rw [List.length_drop]
      omega
    rw [hwindow]
    have hclne : clean ≠ [] := by
      rw [← List.length_pos]
      omega
    have hlast : (clean.drop i).getLast hdropne = clean.getLast hclne := by
      rw [List.getLast_drop]
    have hnw : isJsWs (clean.getLast hclne) = false := by
      have := getLast_trimWs_not_ws (collapseWs text)
        (by rw [hcleandef] at hclne; exact hclne)
      simp only [Bool.not_eq_true] at this
      exact this
    refine trimWs_ne_nil_of_mem ?_ (hlast ▸ hnw)
    exact List.getLast_mem hdropne

theorem chunkAux_cons {text : List Char} {S O : ℕ} (hS : 2 ≤ S) (fuel i : ℕ)
    (hi : i < (cleanText text).length) :
    chunkAux (cleanText text) S O (fuel + 1) i =
      ((cleanText text).drop i).take S ::
        chunkAux (cleanText text) S O fuel (i + (S - O)) := by
  rw [chunkAux_step fuel i hi, if_pos (trim_window_pos hS i hi)]

/-- Generalised coverage: with a positive stride and `S ≥ 2`, every
position from `i` on is inside the window of some chunk emitted by the
loop started at offset `i`. -/
theorem chunkAux_cover {text : List Char} {S O : ℕ} (hO : O < S) (hS : 2 ≤ S) :
    ∀ (fuel i : ℕ), (cleanText text).length - i < fuel →
      ∀ p, i ≤ p → p < (cleanText text).length →
        ∃ k, k < (chunkAux (cleanText text) S O fuel i).length ∧
          i + k * (S - O) ≤ p ∧
          p < i + k * (S - O) +
            ((chunkAux (cleanText text) S O fuel i).getD k []).length ∧
          (chunkAux (cleanText text) S O fuel i).getD k [] =
            ((cleanText text).drop (i + k * (S - O))).take S := by
  intro fuel
  induction fuel with
  | zero => intro i h p hip hp; omega
  | succ n ih =>
    intro i h p hip hp
    have hi : i < (cleanText text).length := Nat.lt_of_le_of_lt hip hp
    rw [chunkAux_cons hS n i hi]
    by_cases hcase : p < i + (S - O)
    · refine ⟨0, by simp, by simpa using hip, ?_, by simp⟩
      simp only [Nat.zero_mul, Nat.add_zero, List.getD_cons_zero]
      rw [List.length_take, List.length_drop]
      omega
    · have hstep : i + (S - O) ≤ p := Nat.not_lt.mp hcase
      rcases ih (i + (S - O)) (by omega) p hstep hp with ⟨k, hk, h1, h2, h3⟩
      have key : i + (k + 1) * (S - O) = i + (S - O) + k * (S - O) := by
        rw [add_one_mul]
        generalize k * (S - O) = m
        omega
      refine ⟨k + 1, ?_, ?_, ?_, ?_⟩
      · simpa using Nat.succ_lt_succ hk
      · rw [key]; exact h1
      · rw [key]; simpa using h2
      · rw [key]; simpa using h3

/-- Generalised overlap: with a positive stride and `S ≥ 2`, whenever a
chunk has the full length `S`, its last `O` characters coincide with the
first `O` characters of the next chunk. -/
theorem chunkAux_overlap {text : List Char} {S O : ℕ} (hO : O < S) (hS : 2 ≤ S) :
    ∀ (fuel i k : ℕ), (cleanText text).length - i < fuel →
      k + 1 < (chunkAux (cleanText text) S O fuel i).length →
      ((chunkAux (cleanText text) S O fuel i).getD k []).length = S →
      lastN O ((chunkAux (cleanText text) S O fuel i).getD k []) =
        firstN O ((chunkAux (cleanText text) S O fuel i).getD (k + 1) []) := by
  intro fuel
  induction fuel with
  | zero => intro i k h hk hlen; simp [chunkAux] at hk
  | succ n ih =>
    intro i k h hk hlen
    by_cases hi : i < (cleanText text).length
    · rw [chunkAux_cons hS n i hi] at hk hlen ⊢
      cases k with
      | zero =>
        simp only [List.getD_cons_zero] at hlen
        simp only [List.getD_cons_zero, List.getD_cons_succ]
        have hrest : chunkAux (cleanText text) S O n (i + (S - O)) ≠ [] := by
          intro hnil
          rw [hnil] at hk
          simp at hk
        have hnext : i + (S - O) < (cleanText text).length := by
          by_contra hge
          exact hrest (chunkAux_stop n _ (Nat.not_lt.mp hge))
        cases n with
        | zero => exact absurd rfl hrest
        | succ m =>
          rw [chunkAux_cons hS m _ hnext]
          simp only [List.getD_cons_zero]
          unfold lastN firstN
          rw [hlen]
          rw [List.drop_take, List.drop_drop, List.take_take]
          have h1 : S - (S - O) = O := by omega
          have h2 : min O S = O := Nat.min_eq_left (Nat.le_of_lt hO)
          rw [h1, h2]
      | succ k =>
        simp only [List.getD_cons_succ] at hlen ⊢
        exact ih (i + (S - O)) k (by omega) (by simpa using hk) hlen
    · rw [chunkAux_stop (n + 1) i (Nat.not_lt.mp hi)] at hk
      simp at hk

theorem chunkAux_fuel_irrel {clean : List Char} {S O : ℕ} (hO : O < S) :
    ∀ (f f' i : ℕ), clean.length - i < f → clean.length - i < f' →
      chunkAux clean S O f i = chunkAux clean S O f' i := by
  intro f
  induction f with
  | zero => intro f' i h h'; omega
  | succ n ih =>
    intro f' i h h'
    cases f' with
    | zero => omega
    | succ m =>
      by_cases hi : i < clean.length
      · rw [chunkAux_step n i hi, chunkAux_step m i hi,
          ih m (i + (S - O)) (by omega) (by omega)]
      · rw [chunkAux_stop (n + 1) i (Nat.not_lt.mp hi),
          chunkAux_stop (m + 1) i (Nat.not_lt.mp hi)]

theorem jsSubstring_eq_window (s : List Char) (i S : ℕ) (hi : i ≤ s.length) :
    jsSubstring s (i : ℤ) ((i : ℤ) + (S : ℤ)) = (s.drop i).take S := by
  simp only [jsSubstring]
  have hA : max 0 (min (i : ℤ) (s.length : ℤ)) = (i : ℤ) := by omega
  have hB : max 0 (min ((i : ℤ) + (S : ℤ)) (s.length : ℤ))
      = min ((i : ℤ) + (S : ℤ)) (s.length : ℤ) := by omega
  rw [hA, hB]
  have hlo : min (i : ℤ) (min ((i : ℤ) + (S : ℤ)) (s.length : ℤ)) = (i : ℤ) := by omega
  have hhi : max (i : ℤ) (min ((i : ℤ) + (S : ℤ)) (s.length : ℤ))
      = min ((i : ℤ) + (S : ℤ)) (s.length : ℤ) := by omega
  rw [hlo, hhi]
  have htn : ((i : ℤ)).toNat = i := Int.toNat_natCast i
  have htd : (min ((i : ℤ) + (S : ℤ)) (s.length : ℤ) - (i : ℤ)).toNat
      = min S (s.length - i) := by omega
  rw [htn, htd]
  rw [List.take_eq_take]
  rw [List.length_drop]
  omega

theorem chunkLoopFuel_eq_chunkAux {clean : List Char} {S O : ℕ} (hO : O < S) :
    ∀ (fuel i : ℕ), clean.length - i < fuel →
      chunkLoopFuel clean (S : ℤ) (O : ℤ) fuel (i : ℤ) =
        some (chunkAux clean S O fuel i) := by
  intro fuel
  induction fuel with
  | zero => intro i h; omega
  | succ n ih =>
    intro i h
    rw [chunkLoopFuel]
    by_cases hi : i < clean.length
    · rw [if_pos (by exact_mod_cast hi)]
      rw [jsSubstring_eq_window clean i S (Nat.le_of_lt hi)]
      have hstride : (i : ℤ) + ((S : ℤ) - (O : ℤ)) = ((i + (S - O) : ℕ) : ℤ) := by
        have : O ≤ S := Nat.le_of_lt hO
        push_cast [this]
        omega
      rw [hstride, ih (i + (S - O)) (by omega)]
      rw [chunkAux_step n i hi]
    · rw [if_neg (by exact_mod_cast hi)]
      rw [chunkAux_stop (n + 1) i (Nat.not_lt.mp hi)]

/-- For validated parameters (`chunkOverlap < chunkSize`) the literal
JavaScript loop terminates within `cleanText.length + 1` iterations and
returns exactly the chunks computed by `chunkText`. -/
theorem chunkTextJs_eq_chunkText (text : List Char) (S O : ℕ) (hO : O < S)
    (fuel : ℕ) (hfuel : (cleanText text).length < fuel) :
    chunkTextJs text (S : ℤ) (O : ℤ) fuel = some (chunkText text S O) := by
  unfold chunkTextJs chunkText
  have h0 := @chunkLoopFuel_eq_chunkAux (cleanText text) S O hO fuel 0 (by omega)
  rw [Nat.cast_zero] at h0
  rw [h0]
  rw [chunkAux_fuel_irrel hO fuel ((cleanText text).length + 1) 0 (by omega) (by omega)]

/-- Claim C2: `chunkText` performs no parameter validation.  With
`chunkOverlap = chunkSize = 1000` (stride zero) and the two-character
input text "ab" the loop body never advances the index, so the literal
loop does not terminate: for every fuel bound the fuelled model returns
`none`.  The spec requires such calls to be rejected; the code is in the
wrong. -/
theorem chunkText_no_validation_diverges :
    ∀ fuel : ℕ, chunkTextJs ['a', 'b'] 1000 1000 fuel = none := by
  have hclean : cleanText ['a', 'b'] = ['a', 'b'] := by decide
  intro fuel
  unfold chunkTextJs
  rw [hclean]
  induction fuel with
  | zero => rfl
  | succ n ih =>
    rw [chunkLoopFuel]
    rw [if_pos (show (0 : ℤ) < ((['a', 'b'] : List Char).length : ℤ) by decide)]
    rw [show (0 : ℤ) + (1000 - 1000) = 0 by decide]
    rw [ih]

/-- Witness for Claim C2 at a concrete fuel bound. -/
theorem chunkText_no_validation_diverges_witness :
    chunkTextJs ['a', 'b'] 1000 1000 5 = none :=
  chunkText_no_validation_diverges 5

set_option maxRecDepth 100000 in
/-- Counterexample to Claim C1 as stated: a normalized input of 801
non-whitespace characters is non-empty and shorter than the default
`chunkSize = 1000`, yet `chunkText` with the default parameters returns
two chunks (at offsets 0 and 800), not one. -/
theorem chunkText_short_input_two_chunks :
    0 < (cleanText (List.replicate 801 'a')).length ∧
    (cleanText (List.replicate 801 'a')).length < 1000 ∧
    (chunkText (List.replicate 801 'a') 1000 200).length = 2 :=
  ⟨by decide, by decide, by decide⟩

/-- Claim C1 (amended): for every input text whose normalized form is
non-empty and of length at most `chunkSize - chunkOverlap` (800 with the
defaults), `chunkText` returns exactly one chunk, equal to the whole
normalized input. -/
theorem chunkText_single_chunk (text : List Char) (S O : ℕ) (hO : O < S)
    (hne : 0 < (cleanText text).length)
    (hlen : (cleanText text).length ≤ S - O) :
    chunkText text S O = [cleanText text] := by
  unfold chunkText
  rw [chunkAux_step ((cleanText text).length) 0 hne]
  rw [List.drop_zero]
  rw [List.take_of_length_le (by omega)]
  rw [trimWs_cleanText]
  rw [if_pos hne]
  rw [chunkAux_stop ((cleanText text).length) (0 + (S - O)) (by omega)]

/-- Witness for Claim C1 (amended) on the three-character input "abc"
with the default parameters. -/
theorem chunkText_single_chunk_witness :
    chunkText ['a', 'b', 'c'] 1000 200 = [cleanText ['a', 'b', 'c']] :=
  chunkText_single_chunk ['a', 'b', 'c'] 1000 200 (by decide) (by decide) (by decide)

/-- Counterexample to Claim C4 as stated: with `S = 1`, `O = 0`
(`O < S` holds) on the text "a b", the middle window consists of the
single space and is discarded by the `chunk.trim().length > 0` filter,
so the space at position 1 of the normalized text occurs in no returned
chunk: the chunks cannot cover position 1. -/
theorem chunkText_cover_counterexample :
    cleanText ['a', ' ', 'b'] = ['a', ' ', 'b'] ∧
    chunkText ['a', ' ', 'b'] 1 0 = [['a'], ['b']] ∧
    (∀ c ∈ chunkText ['a', ' ', 'b'] 1 0, ' ' ∉ c) := by
  decide

/-- Claim C4 (amended): for `O < S` and `S ≥ 2` (so that no
whitespace-only window is discarded), every chunk has length at most `S`
and every position `p` of the normalized text lies inside the window of
some returned chunk, the chunk being exactly the window of the cleaned
text starting at its offset `k * (S - O)`. -/
theorem chunkText_cover (text : List Char) (S O : ℕ) (hO : O < S) (hS : 2 ≤ S) :
    (∀ c ∈ chunkText text S O, c.length ≤ S) ∧
    ∀ p, p < (cleanText text).length →
      ∃ k, k < (chunkText text S O).length ∧
        k * (S - O) ≤ p ∧
        p < k * (S - O) + ((chunkText text S O).getD k []).length ∧
        (chunkText text S O).getD k [] =
          ((cleanText text).drop (k * (S - O))).take S := by
  constructor
  · intro c hc
    rcases (mem_chunkAux _ _ c hc).2 with ⟨j, rfl⟩
    exact List.length_take_le _ _
  · intro p hp
    have h := chunkAux_cover hO hS ((cleanText text).length + 1) 0
      (by omega) p (Nat.zero_le _) hp
    simpa using h

/-- Witness for Claim C4 (amended): position 2 of "abc" is covered when
chunking with `S = 2`, `O = 1`. -/
theorem chunkText_cover_witness :
    ∃ k, k < (chunkText ['a', 'b', 'c'] 2 1).length ∧
      k * (2 - 1) ≤ 2 ∧
      2 < k * (2 - 1) + ((chunkText ['a', 'b', 'c'] 2 1).getD k []).length ∧
      (chunkText ['a', 'b', 'c'] 2 1).getD k [] =
        ((cleanText ['a', 'b', 'c']).drop (k * (2 - 1))).take 2 :=
  (chunkText_cover ['a', 'b', 'c'] 2 1 (by decide) (by decide)).2 2 (by decide)

/-- Counterexample to Claim C5 as stated: chunking "abcdefghi" with
`S = 10`, `O = 8` produces five chunks, and already the first
(non-final) pair fails the overlap property: the last 8 characters of
chunk 0 are "bcdefghi" while the first 8 characters of chunk 1 are
"cdefghi". -/
theorem chunkText_overlap_counterexample :
    chunkText ['a', 'b', 'c', 'd', 'e', 'f', 'g', 'h', 'i'] 10 8 =
      [['a', 'b', 'c', 'd', 'e', 'f', 'g', 'h', 'i'],
       ['c', 'd', 'e', 'f', 'g', 'h', 'i'],
       ['e', 'f', 'g', 'h', 'i'],
       ['g', 'h', 'i'],
       ['i']] ∧
    0 + 1 < (chunkText ['a', 'b', 'c', 'd', 'e', 'f', 'g', 'h', 'i'] 10 8).length - 1 ∧
    lastN 8 ((chunkText ['a', 'b', 'c', 'd', 'e', 'f', 'g', 'h', 'i'] 10 8).getD 0 []) ≠
      firstN 8 ((chunkText ['a', 'b', 'c', 'd', 'e', 'f', 'g', 'h', 'i'] 10 8).getD 1 []) := by
  decide

/-- Claim C5 (amended): for `O < S`, whenever chunk `k` has the full
length `S`, its last `O` characters equal the first `O` characters of
chunk `k + 1` (the exception is therefore exactly the chunks that are
already shorter than `S`, which can only occur at the end of the
text). -/
theorem chunkText_overlap (text : List Char) (S O : ℕ) (hO : O < S) (k : ℕ)
    (hk : k + 1 < (chunkText text S O).length)
    (hfull : ((chunkText text S O).getD k []).length = S) :
    lastN O ((chunkText text S O).getD k []) =
      firstN O ((chunkText text S O).getD (k + 1) []) := by
  by_cases hO0 : O = 0
  · subst hO0
    unfold lastN firstN
    simp
  · have hS : 2 ≤ S := by omega
    exact chunkAux_overlap hO hS ((cleanText text).length + 1) 0 k (by omega) hk hfull

/-- Witness for Claim C5 (amended) on "abc" with `S = 2`, `O = 1`. -/
theorem chunkText_overlap_witness :
    lastN 1 ((chunkText ['a', 'b', 'c'] 2 1).getD 0 []) =
      firstN 1 ((chunkText ['a', 'b', 'c'] 2 1).getD 1 []) :=
  chunkText_overlap ['a', 'b', 'c'] 2 1 (by decide) 0 (by decide) (by decide)

/-- Claim C10: every chunk returned by `chunkText` (with validated
parameters `O < S`) is non-empty after trimming, contains no
non-space whitespace character (no newline, tab, etc.), and contains no
two adjacent whitespace characters. -/
theorem chunkText_chunk_invariants (text : List Char) (S O : ℕ) (_hO : O < S) :
    ∀ c ∈ chunkText text S O,
      0 < (trimWs c).length ∧
      (∀ ch ∈ c, isJsWs ch = true → ch = ' ') ∧
      c.Chain' noWsPair := by
  intro c hc
  obtain ⟨htrim, j, rfl⟩ := mem_chunkAux _ _ c hc
  refine ⟨htrim, ?_, ?_⟩
  · intro ch hch hws
    exact mem_cleanText_ws_eq_space ((window_isInfix _ j S).subset hch) hws
  · exact List.Chain'.infix (chain'_cleanText text) (window_isInfix _ j S)

/-- Witness for Claim C10: the chunk `"ab"` of `chunkText "abc" 2 1`. -/
theorem chunkText_chunk_invariants_witness :
    0 < (trimWs ['a', 'b']).length ∧
    (∀ ch ∈ (['a', 'b'] : List Char), isJsWs ch = true → ch = ' ') ∧
    (['a', 'b'] : List Char).Chain' noWsPair :=
  chunkText_chunk_invariants ['a', 'b', 'c'] 2 1 (by decide) ['a', 'b'] (by decide)

theorem mem_insertDesc {α : Type} (sim : α → ℚ) (a c : α) :
    ∀ l, c ∈ insertDesc sim a l ↔ c = a ∨ c ∈ l := by
  intro l
  induction l with
  | nil => simp [insertDesc]
  | cons b l ih =>
    rw [insertDesc]
    by_cases h : sim b < sim a
    · rw [if_pos h]
      simp [List.mem_cons]
    · rw [if_neg h]
      simp only [List.mem_cons, ih]
      tauto

theorem pairwise_insertDesc {α : Type} (sim : α → ℚ) (a : α) :
    ∀ l, l.Pairwise (descOn sim) → (insertDesc sim a l).Pairwise (descOn sim) := by
  intro l
  induction l with
  | nil => intro _; simp [insertDesc]
  | cons b l ih =>
    intro hp
    rw [List.pairwise_cons] at hp
    obtain ⟨hb, hl⟩ := hp
    rw [insertDesc]
    by_cases h : sim b < sim a
    · rw [if_pos h, List.pairwise_cons]
      constructor
      · intro y hy
        rcases List.mem_cons.mp hy with rfl | hy'
        · exact le_of_lt h
        · exact le_trans (hb y hy') (le_of_lt h)
      · rw [List.pairwise_cons]
        exact ⟨hb, hl⟩
    · rw [if_neg h, List.pairwise_cons]
      constructor
      · intro y hy
        rcases (mem_insertDesc sim a y l).mp hy with rfl | hy'
        · exact le_of_not_lt h
        · exact hb y hy'
      · exact ih hl

theorem pairwise_sortDesc {α : Type} (sim : α → ℚ) :
    ∀ l, (sortDesc sim l).Pairwise (descOn sim) := by
  intro l
  induction l with
  | nil => simp [sortDesc]
  | cons a l ih =>
    rw [sortDesc]
    exact pairwise_insertDesc sim a _ ih

theorem mem_sortDesc {α : Type} (sim : α → ℚ) (c : α) :
    ∀ l, c ∈ sortDesc sim l ↔ c ∈ l := by
  intro l
  induction l with
  | nil => simp [sortDesc]
  | cons a l ih =>
    rw [sortDesc, mem_insertDesc]
    simp [ih]

/-- Claim C6: the Retriever returns only matches with similarity
strictly greater than the threshold 0.5 (a match scored exactly 0.5 is
excluded), returns at most 10 matches, and returns them in descending
order of similarity. -/
theorem retrieve_filter_cap_order {α : Type} (sim : α → ℚ) (rows : List α) :
    mkRat 1 2 = (1 : ℚ) / 2 ∧
    (∀ r ∈ retrieve sim rows, mkRat 1 2 < sim r) ∧
    (∀ r, sim r = mkRat 1 2 → r ∉ retrieve sim rows) ∧
    (retrieve sim rows).length ≤ 10 ∧
    (retrieve sim rows).Pairwise (descOn sim) := by
  have hmem : ∀ r ∈ retrieve sim rows, mkRat 1 2 < sim r := by
    intro r hr
    unfold retrieve matchDocuments at hr
    have h1 := List.take_subset _ _ hr
    rw [mem_sortDesc] at h1
    exact of_decide_eq_true (List.mem_filter.mp h1).2
  refine ⟨by norm_num, hmem, ?_, ?_, ?_⟩
  · intro r hsim hr
    have h := hmem r hr
    rw [hsim] at h
    exact lt_irrefl _ h
  · unfold retrieve matchDocuments
    rw [List.length_take]
    omega
  · unfold retrieve matchDocuments
    exact List.Pairwise.sublist (List.take_sublist _ _) (pairwise_sortDesc sim _)

/-- Witness for Claim C6 on two stored rows with similarities 3 and 7. -/
theorem retrieve_filter_cap_order_witness :
    mkRat 1 2 < id (7 : ℚ) ∧ (retrieve id [(3 : ℚ), 7]).length ≤ 10 :=
  ⟨(retrieve_filter_cap_order id [(3 : ℚ), 7]).2.1 7 (by decide),
   (retrieve_filter_cap_order id [(3 : ℚ), 7]).2.2.2.1⟩

theorem foldl_append_eq (l : List String) :
    ∀ a : String, l.foldl (fun r s => r ++ s) a = a ++ String.join l := by
  induction l with
  | nil => intro a; exact (String.append_empty a).symm
  | cons x xs ih =>
    intro a
    rw [List.foldl_cons, ih (a ++ x)]
    have hx : String.join (x :: xs) = x ++ String.join xs := by
      show (x :: xs).foldl (fun r s => r ++ s) "" = _
      rw [List.foldl_cons, String.empty_append]
      exact ih x
    rw [hx, String.append_assoc]

theorem strJoin_cons (x : String) (l : List String) :
    String.join (x :: l) = x ++ String.join l := by
  show (x :: l).foldl (fun r s => r ++ s) "" = _
  rw [List.foldl_cons, String.empty_append]
  exact foldl_append_eq l x

theorem labelFold_eq (l : List (ℕ × String)) :
    ∀ acc : String, l.foldl (fun a p => a ++ chunkLabel p.1 p.2) acc =
      acc ++ String.join (l.map fun p => chunkLabel p.1 p.2) := by
  induction l with
  | nil =>
    intro acc
    rw [List.map_nil]
    exact (String.append_empty acc).symm
  | cons x xs ih =>
    intro acc
    rw [List.foldl_cons, ih (acc ++ chunkLabel x.1 x.2), List.map_cons,
      strJoin_cons, String.append_assoc]

theorem chunkLabel_ne_empty (i : ℕ) (r : String) : chunkLabel i r ≠ "" := by
  intro h
  have hlen := congrArg String.length h
  rw [chunkLabel] at hlen
  simp only [String.length_append] at hlen
  have h6 : "Chunk ".length = 6 := by decide
  have h0 : "".length = 0 := by decide
  rw [h6, h0] at hlen
  omega

theorem str_append_ne_left {s : String} (h : s ≠ "") (t : String) : s ++ t ≠ "" := by
  intro he
  apply h
  have hd : (s ++ t).data = "".data := congrArg String.data he
  rw [String.data_append] at hd
  have hnil : s.data = [] := (List.append_eq_nil.mp (by simpa using hd)).1
  apply String.ext
  rw [hnil]

/-- Claim C7: the assembled context is the concatenation, over the
matches in rank order (1-indexed), of `"Chunk {i}:\n{content}\n\n"` with
each content trimmed; the empty result list yields exactly the literal
`"No relevant context found."`; and in both cases the context string is
embedded verbatim in the user message sent to the generation
collaborator. -/
theorem processQuery_context_spec (q : String) (rows : List String) :
    (rows ≠ [] → buildContext rows =
      String.join (rows.enum.map
        (fun p => "Chunk " ++ toString (p.1 + 1) ++ ":\n" ++ jsTrimS p.2 ++ "\n\n"))) ∧
    buildContext [] = "No relevant context found." ∧
    ∃ pre post, userMessage q rows = pre ++ buildContext rows ++ post := by
  refine ⟨?_, rfl, ?_⟩
  · intro hne
    have hctx : rows.enum.foldl (fun a p => a ++ chunkLabel p.1 p.2) ""
        = String.join (rows.enum.map fun p => chunkLabel p.1 p.2) := by
      rw [labelFold_eq, String.empty_append]
    have hne2 : rows.enum.foldl (fun a p => a ++ chunkLabel p.1 p.2) "" ≠ "" := by
      rw [hctx]
      obtain ⟨r, rs, rfl⟩ := List.exists_cons_of_ne_nil hne
      rw [List.enum_cons, List.map_cons, strJoin_cons]
      exact str_append_ne_left (chunkLabel_ne_empty 0 r) _
    show (if rows.enum.foldl (fun acc p => acc ++ chunkLabel p.1 p.2) "" = "" then
        "No relevant context found."
      else rows.enum.foldl (fun acc p => acc ++ chunkLabel p.1 p.2) "") = _
    rw [if_neg hne2]
    exact hctx
  · refine ⟨"Context:\n",
      "\n\nQuestion: " ++ q ++ "\n\nAnswer clearly and concisely.", ?_⟩
    simp [userMessage, String.append_assoc]

/-- Witness for Claim C7 on the single match `"x "` (note the trimmed
content) and the query `"q"`. -/
theorem processQuery_context_spec_witness :
    buildContext ["x "] = "Chunk 1:\nx\n\n" ∧
    ∃ pre post, userMessage "q" ["x "] = pre ++ buildContext ["x "] ++ post := by
  refine ⟨?_, (processQuery_context_spec "q" ["x "]).2.2⟩
  rw [(processQuery_context_spec "q" ["x "]).1 (by decide)]
  decide

/-- Claim C8: a request whose `query` is missing, empty, or
whitespace-only is rejected with status 400, for every downstream
pipeline `process` (so before any collaborator is invoked); any other
query string passes validation and the pipeline runs on it. -/
theorem postQuery_validation {α : Type} (process : String → α) (body : Option String) :
    ((body = none ∨ ∃ q, body = some q ∧ jsTrimS q = "") →
      postQuery process body = Except.error 400) ∧
    (∀ q, body = some q → jsTrimS q ≠ "" →
      postQuery process body = Except.ok (process q)) := by
  constructor
  · rintro (rfl | ⟨q, rfl, hq⟩)
    · rfl
    · show ite (q = "" ∨ jsTrimS q = "") (Except.error 400) (Except.ok (process q))
        = Except.error 400
      rw [if_pos (Or.inr hq)]
  · rintro q rfl hq
    show ite (q = "" ∨ jsTrimS q = "") (Except.error 400) (Except.ok (process q))
      = Except.ok (process q)
    rw [if_neg ?hcond]
    case hcond =>
      rintro (rfl | h)
      · exact hq rfl
      · exact hq h

/-- Witness for Claim C8: a whitespace-only query is rejected, a
non-blank one reaches the pipeline. -/
theorem postQuery_validation_witness :
    postQuery String.length (some "  ") = Except.error 400 ∧
    postQuery String.length (some "hi") = Except.ok 2 := by
  refine ⟨(postQuery_validation String.length (some "  ")).1
    (Or.inr ⟨"  ", rfl, by decide⟩), ?_⟩
  rw [(postQuery_validation String.length (some "hi")).2 "hi" rfl (by decide)]
  rfl

/-- Claim C9: a PDF document whose extracted text is empty or
whitespace-only is skipped: no chunks are persisted for it, its name is
recorded as a warning, no error is raised there, and indexing continues
with the remaining documents. -/
theorem indexLocalDocs_empty_text_skip (ok : String → Bool) (d : PDoc)
    (rest : List PDoc) (st : IndexState) (hpdf : isPdfName d.name = true)
    (hempty : jsTrimS (d.text.getD "") = "") :
    indexGo ok (d :: rest) st =
      indexGo ok rest { st with warnings := st.warnings ++ [d.name] } := by
  simp only [indexGo]
  rw [if_pos hpdf, if_pos hempty]

/-- Witness for Claim C9: one whitespace-only PDF is skipped with a
warning and indexing succeeds. -/
theorem indexLocalDocs_empty_text_skip_witness :
    indexLocalDocs (fun _ => true) [⟨"a.pdf", some "  "⟩] =
      (⟨[], ["a.pdf"]⟩, true) := by
  unfold indexLocalDocs
  rw [indexLocalDocs_empty_text_skip (fun _ => true) ⟨"a.pdf", some "  "⟩ [] ⟨[], []⟩
    (by decide) (by decide)]
  rfl

/-- Counterexample to Claim C3 as stated: with an oracle that fails on
the chunk `"aaa"`, indexing the folder `[a.pdf, b.pdf]` fails on
`a.pdf` and never processes `b.pdf` — no row of `b.pdf` is persisted —
whereas indexing `[b.pdf]` alone persists its chunk.  A single
document's failure does halt the processing of later documents. -/
theorem indexLocalDocs_abort_counterexample :
    indexLocalDocs (fun c => !(c == "aaa"))
        [⟨"a.pdf", some "aaa"⟩, ⟨"b.pdf", some "bbb"⟩] =
      (⟨[], []⟩, false) ∧
    indexLocalDocs (fun c => !(c == "aaa")) [⟨"b.pdf", some "bbb"⟩] =
      (⟨[("b", "bbb")], []⟩, true) := by
  exact ⟨rfl, rfl⟩

/-- Claim C3 (amended): when embedding or persisting a chunk of a
document fails, the rows persisted earlier (those of previous documents,
already in the state, and the failing document's own successful inserts)
remain persisted, but the folder-indexing call aborts with an error:
the documents after the failing one are not processed at all. -/
theorem indexLocalDocs_chunk_failure_aborts (ok : String → Bool) (d : PDoc)
    (rest : List PDoc) (st : IndexState) (hpdf : isPdfName d.name = true)
    (hnonempty : jsTrimS (d.text.getD "") ≠ "")
    (hfail : ((chunkText (jsTrimS (d.text.getD "")).data 1000 200).map String.mk).all ok
      = false) :
    indexGo ok (d :: rest) st =
      ({ st with persisted := st.persisted ++
          ((((chunkText (jsTrimS (d.text.getD "")).data 1000 200).map String.mk).filter
            ok).map (fun c => (docTitle d.name, c))) }, false) := by
  simp only [indexGo, saveChunksAsEmbeddings]
  rw [if_pos hpdf, if_neg hnonempty, hfail]
  simp

/-- Witness for Claim C3 (amended): the failing document leaves the
previously persisted row in place, adds nothing of its own (its only
chunk fails), returns the error, and the following document is not
reached. -/
theorem indexLocalDocs_chunk_failure_aborts_witness :
    indexGo (fun c => !(c == "aaa"))
        [⟨"a.pdf", some "aaa"⟩, ⟨"b.pdf", some "bbb"⟩] ⟨[("t", "x")], []⟩ =
      (⟨[("t", "x")], []⟩, false) := by
  rw [indexLocalDocs_chunk_failure_aborts (fun c => !(c == "aaa")) ⟨"a.pdf", some "aaa"⟩
    [⟨"b.pdf", some "bbb"⟩] ⟨[("t", "x")], []⟩ (by decide) (by decide) (by decide)]
  rfl
